import Mathlib

/-!
Verification of the reminder subsystem of the gdsc-bot repository
(`src/gdsc_bot/commands/remind.py`), shallowly embedded in Lean 4.

Datetimes are modelled as a calendar date `(year, month, day)` together with
a time-of-day measured in seconds (`tod`).  Parsed reminder times
(`strptime` with format `%I:%M %p`) always land on whole minutes, while the
clock (`datetime.now()`) may carry sub-minute precision; both live in the
same `DT` type and are compared lexicographically, exactly like Python
`datetime` values.  Stateful methods of `ReminderManager` are embedded in
explicit state-passing style over an association-list model of the
`defaultdict` backing store; Python exceptions become `Except` values.
-/

/-- Calendar date, as carried by a Python `datetime`: year, month, day. -/
structure Date where
  y : Nat
  m : Nat
  d : Nat
deriving DecidableEq

/-- A Python `datetime`: a calendar date plus a time-of-day in seconds.
Whole-minute values of `tod` correspond to times parseable by the
`%I:%M %p` format; arbitrary values model the sub-minute precision of
`datetime.now()`. -/
structure DT where
  date : Date
  tod : Nat
deriving DecidableEq

/-- The `Reminder` dataclass: `@dataclass(order=True, frozen=True)` with
fields `dt` and `message`, compared lexicographically in that order. -/
structure Reminder where
  dt : DT
  message : String
deriving DecidableEq

/-- Strict order on dates (Python `date.__lt__`): lexicographic on
(year, month, day). -/
def dateLt (a b : Date) : Prop :=
  a.y < b.y ∨ (a.y = b.y ∧ (a.m < b.m ∨ (a.m = b.m ∧ a.d < b.d)))

/-- Strict order on datetimes (Python `datetime.__lt__`): date first,
then time-of-day. -/
def dtLt (a b : DT) : Prop :=
  dateLt a.date b.date ∨ (a.date = b.date ∧ a.tod < b.tod)

/-- Strict order on reminders (the dataclass-generated `__lt__`:
lexicographic on `(dt, message)`). -/
def rlt (a b : Reminder) : Prop :=
  dtLt a.dt b.dt ∨ (a.dt = b.dt ∧ a.message < b.message)

/-- Boolean `<` on dates. -/
def dateLtb (a b : Date) : Bool :=
  decide (a.y < b.y) ||
    (decide (a.y = b.y) &&
      (decide (a.m < b.m) || (decide (a.m = b.m) && decide (a.d < b.d))))

/-- Boolean `<` on datetimes. -/
def dtLtb (a b : DT) : Bool :=
  dateLtb a.date b.date || (decide (a.date = b.date) && decide (a.tod < b.tod))

/-- Boolean `<` on reminders. -/
def rLtb (a b : Reminder) : Bool :=
  dtLtb a.dt b.dt || (decide (a.dt = b.dt) && decide (a.message < b.message))

theorem dateLtb_iff {a b : Date} : dateLtb a b = true ↔ dateLt a b := by
  simp [dateLtb, dateLt]

theorem dtLtb_iff {a b : DT} : dtLtb a b = true ↔ dtLt a b := by
  simp [dtLtb, dtLt, dateLtb_iff]

theorem rLtb_iff {a b : Reminder} : rLtb a b = true ↔ rlt a b := by
  simp [rLtb, rlt, dtLtb_iff]

theorem dtLt_trans {a b c : DT} (h1 : dtLt a b) (h2 : dtLt b c) : dtLt a c := by
  cases a with | mk ad at' => cases b with | mk bd bt => cases c with | mk cd ct =>
  cases ad; cases bd; cases cd
  simp only [dtLt, dateLt, Date.mk.injEq] at *
  omega

theorem dtLt_irrefl (a : DT) : ¬ dtLt a a := by
  cases a with | mk ad at' =>
  cases ad
  simp only [dtLt, dateLt, Date.mk.injEq]
  omega

theorem dtLt_connex {a b : DT} : dtLt a b ∨ a = b ∨ dtLt b a := by
  cases a with | mk ad at' => cases b with | mk bd bt =>
  cases ad; cases bd
  simp only [dtLt, dateLt, Date.mk.injEq, DT.mk.injEq]
  omega

theorem rlt_trans {a b c : Reminder} (h1 : rlt a b) (h2 : rlt b c) :
    rlt a c := by
  rcases h1 with h1 | ⟨he1, hs1⟩
  · rcases h2 with h2 | ⟨he2, hs2⟩
    · exact Or.inl (dtLt_trans h1 h2)
    · exact Or.inl (he2 ▸ h1)
  · rcases h2 with h2 | ⟨he2, hs2⟩
    · exact Or.inl (he1 ▸ h2)
    · exact Or.inr ⟨he1.trans he2, lt_trans hs1 hs2⟩

theorem rlt_irrefl (a : Reminder) : ¬ rlt a a := by
  rintro (h | ⟨-, h⟩)
  · exact dtLt_irrefl _ h
  · exact lt_irrefl _ h

theorem rlt_of_not_rlt {a b : Reminder} (h : ¬ rlt a b) (hne : a ≠ b) :
    rlt b a := by
  rcases @dtLt_connex a.dt b.dt with hd | hd | hd
  · exact absurd (Or.inl hd) h
  · rcases lt_trichotomy a.message b.message with hs | hs | hs
    · exact absurd (Or.inr ⟨hd, hs⟩) h
    · exact absurd (by cases a; cases b; simp_all) hne
    · exact Or.inr ⟨hd.symm, hs⟩
  · exact Or.inl hd

/-- Python leap-year rule, as used by the `datetime` module. -/
def isLeap (y : Nat) : Bool :=
  (y % 4 == 0 && y % 100 != 0) || y % 400 == 0

/-- Number of days in a month of a given year. -/
def daysInMonth (y m : Nat) : Nat :=
  if m = 2 then (if isLeap y then 29 else 28)
  else if m = 4 ∨ m = 6 ∨ m = 9 ∨ m = 11 then 30
  else 31

/-- The calendar successor of a date: `date + timedelta(days=1)`. -/
def Date.next (a : Date) : Date :=
  if a.d < daysInMonth a.y a.m then ⟨a.y, a.m, a.d + 1⟩
  else if a.m < 12 then ⟨a.y, a.m + 1, 1⟩
  else ⟨a.y + 1, 1, 1⟩

/-- `dt + timedelta(days=1)`: the time-of-day is unchanged, the date
moves to the next calendar day. -/
def addOneDay (t : DT) : DT := ⟨t.date.next, t.tod⟩

theorem dateLt_next (a : Date) : dateLt a a.next := by
  cases a with | mk ay am ad =>
  unfold Date.next
  split
  · simp [dateLt]
  · split <;> simp_all [dateLt]

/-- Python exceptions raised by the reminder subsystem. -/
inductive PyErr where
  | valueErr (s : String)
  | keyErr
  | indexErr
  | pastDateTime (s : String)
deriving DecidableEq

/-- `RemindCommand.__calculate_datetime`, over parsed inputs: `t` is the
time-of-day in seconds obtained by `strptime(time, TIME_FORMAT)`, `day`
is the parsed date when the `day` argument was passed, and `now` is
`datetime.now()`.

```
dt = datetime.strptime(time, TIME_FORMAT)
now = datetime.now()
if day:
    dt = datetime.combine(datetime.strptime(day, DATE_FORMAT), dt.time())
else:
    dt = datetime.combine(now.date(), dt.time())
    if dt < now:
        dt += timedelta(days=1)
if dt < now:
    if dt.date() < now.date():
        raise PastDateTimeError("The day passed in is already over")
    if dt.time() < now.time():
        raise PastDateTimeError("The time passed in is already over")
return dt
```
-/
def calculate_datetime (t : Nat) (day : Option Date) (now : DT) :
    Except PyErr DT :=
  let dt : DT :=
    match day with
    | some d => ⟨d, t⟩
    | none =>
      let dt0 : DT := ⟨now.date, t⟩
      if dtLtb dt0 now then addOneDay dt0 else dt0
  if dtLtb dt now then
    if dateLtb dt.date now.date then
      .error (.pastDateTime "The day passed in is already over")
    else if dt.tod < now.tod then
      .error (.pastDateTime "The time passed in is already over")
    else .ok dt
  else .ok dt

/-- Owners (`User | Member`) are opaque; only hashing/equality is used. -/
abbrev Owner := Nat

/-- The backing store of `ReminderManager`:
`defaultdict[User | Member, SortedSet]`, modelled as an association list
in dict insertion order with unique keys; each value is the sorted list
of the owner's reminders. -/
abbrev Store := List (Owner × List Reminder)

/-- Python `dict.get(user)`: the first (unique) entry for an owner, if any. -/
def lookupS : Store → Owner → Option (List Reminder)
  | [], _ => none
  | (v, l) :: s, u => if v = u then some l else lookupS s u

/-- Replace the value stored under an owner (in-place mutation of the
owner's `SortedSet`); appends when the owner is absent. -/
def updateS : Store → Owner → List Reminder → Store
  | [], u, l => [(u, l)]
  | (v, m) :: s, u, l => if v = u then (u, l) :: s else (v, m) :: updateS s u l

/-- Python `del dict[user]`: drop the owner's entry. -/
def eraseS : Store → Owner → Store
  | [], _ => []
  | (v, m) :: s, u => if v = u then s else (v, m) :: eraseS s u

/-- `defaultdict.__getitem__`: return the owner's collection, inserting a
fresh empty one (at the end, in dict insertion order) when absent. -/
def dgetS (s : Store) (u : Owner) : List Reminder × Store :=
  match lookupS s u with
  | some l => (l, s)
  | none => ([], s ++ [(u, [])])

/-- `SortedSet.remove`: drop the (unique) occurrence of a reminder. -/
def removeR (r : Reminder) : List Reminder → List Reminder
  | [] => []
  | x :: l => if x = r then l else x :: removeR r l

/-- `SortedSet.add`: insert a reminder at its sorted position (callers
ensure it is not already present). -/
def ssAdd (a : Reminder) : List Reminder → List Reminder
  | [] => [a]
  | b :: l => if rLtb a b then a :: b :: l else b :: ssAdd a l

/-- Python truthiness of an `Optional[str]`: `None` and `""` are falsy. -/
def truthyStr : Option String → Bool
  | none => false
  | some s => decide (s ≠ "")

/-- `ReminderManager.list_reminders`: `self.reminders.get(user)`. -/
def list_reminders (s : Store) (u : Owner) : Option (List Reminder) :=
  lookupS s u

/-- `ReminderManager.set_reminder`: build `Reminder(dt, message)`, raise
`ValueError` if it is already present for the owner, otherwise add it. -/
def set_reminder (s : Store) (u : Owner) (dt : DT) (message : String) :
    Except PyErr Unit × Store :=
  let reminder : Reminder := ⟨dt, message⟩
  let p := dgetS s u
  if reminder ∈ p.1 then
    (.error (.valueErr "The reminder already exists"), p.2)
  else
    (.ok (), updateS p.2 u (ssAdd reminder p.1))

/-- Lines 112–115 of `ReminderManager.modify_reminder`: the replacement
reminder, falling back to the old message when the new one is falsy
(`None` or `""`) and to the old datetime when none is given. -/
def modify_new (old : Reminder) (dtOpt : Option DT) (msgOpt : Option String) :
    Reminder :=
  let message :=
    match msgOpt with
    | some m => if m = "" then old.message else m
    | none => old.message
  ⟨dtOpt.getD old.dt, message⟩

/-- `ReminderManager.modify_reminder`: raise `ValueError` when neither a
new datetime nor a truthy message is supplied; raise `ValueError` when
the replacement already exists in the owner's collection; raise
`KeyError` (from `SortedSet.remove`) when the old reminder is absent;
otherwise remove the old reminder and add the replacement. -/
def modify_reminder (s : Store) (u : Owner) (old : Reminder)
    (dtOpt : Option DT) (msgOpt : Option String) :
    Except PyErr Unit × Store :=
  if truthyStr msgOpt = false ∧ dtOpt = none then
    (.error (.valueErr "At least datetime or message should be present"), s)
  else
    let new := modify_new old dtOpt msgOpt
    let p := dgetS s u
    if new ∈ p.1 then
      (.error (.valueErr
        "You can't edit a reminder to make it the same as another reminder"),
        p.2)
    else if old ∈ p.1 then
      (.ok (), updateS p.2 u (ssAdd new (removeR old p.1)))
    else
      (.error .keyErr, p.2)

/-- `ReminderManager.delete_reminder`: remove the reminder (raising
`KeyError` when absent), then delete the owner's key if the collection
became empty. -/
def delete_reminder (s : Store) (u : Owner) (r : Reminder) :
    Except PyErr Unit × Store :=
  let p := dgetS s u
  if r ∈ p.1 then
    let l := removeR r p.1
    let s2 := updateS p.2 u l
    if l = [] then (.ok (), eraseS s2 u) else (.ok (), s2)
  else
    (.error .keyErr, p.2)

/-- Inner loop of `ReminderManager.get_expired_reminders`: collect
reminders from the front of one owner's sorted collection while
`reminder.dt < now`, breaking at the first non-expired one. -/
def takeExpired (now : DT) : List Reminder → List Reminder
  | [] => []
  | r :: l => if dtLtb r.dt now then r :: takeExpired now l else []

/-- `ReminderManager.get_expired_reminders`: loop over every owner and
collect the expired front of each collection; the store itself is not
touched by the call (the second component is the state after the call). -/
def get_expired_reminders (s : Store) (now : DT) :
    List (Owner × Reminder) × Store :=
  (s.flatMap (fun p => (takeExpired now p.2).map (fun r => (p.1, r))), s)

/-- `ReminderManager.get_reminder`: `self.reminders[user][reminder_index]`
(`defaultdict` access, then list indexing, raising `IndexError` when out
of range). -/
def get_reminder (s : Store) (u : Owner) (i : Nat) :
    Except PyErr Reminder × Store :=
  let p := dgetS s u
  match p.1.get? i with
  | some r => (.ok r, p.2)
  | none => (.error .indexErr, p.2)

/-- One scan pass of the body of `RemindCommand.check_reminders`: for each
`(user, reminder)` pair returned by `get_expired_reminders`, send the DM
(modelled by the abstract delivery sink `deliver`, `true` = send
succeeded) and then call `delete_reminder`.  A raised send exception
propagates, aborting the pass.  The result records the outcome (the
failing pair, if any), the final store, and the trace of attempted
deliveries, each paired with the store state at the moment of the send. -/
def runPass (deliver : Owner → Reminder → Bool) :
    List (Owner × Reminder) → Store →
    Except (Owner × Reminder) Unit × Store × List ((Owner × Reminder) × Store)
  | [], s => (.ok (), s, [])
  | (u, r) :: ps, s =>
    if deliver u r then
      let rest := runPass deliver ps (delete_reminder s u r).2
      (rest.1, rest.2.1, ((u, r), s) :: rest.2.2)
    else
      (.error (u, r), s, [((u, r), s)])

/-- One iteration of the `while` loop in `RemindCommand.check_reminders`:
drain the expired reminders, then deliver-and-delete each in order. -/
def check_reminders (deliver : Owner → Reminder → Bool) (s : Store)
    (now : DT) :
    Except (Owner × Reminder) Unit × Store × List ((Owner × Reminder) × Store) :=
  runPass deliver (get_expired_reminders s now).1 s

/-- `RemindCommand.set_reminder` (the `/reminders set` handler): resolve
the datetime, then insert; a `PastDateTimeError` or `ValueError` is
caught and reported with the store left untouched by the failing step. -/
def set_reminder_cmd (s : Store) (u : Owner) (message : String) (t : Nat)
    (day : Option Date) (now : DT) : Except PyErr Unit × Store :=
  match calculate_datetime t day now with
  | .error e => (.error e, s)
  | .ok dt => set_reminder s u dt message

/-- Lines 391–396 of `RemindCommand.modify_reminder`: when a new time is
supplied, resolve it (with whatever day was supplied); otherwise resolve
the old reminder's time-of-day rendered through
`strftime(TIME_FORMAT)`/`strptime` (which truncates to whole minutes)
together with the supplied day. -/
def modify_resolve_dt (old : Reminder) (timeOpt : Option Nat)
    (dayOpt : Option Date) (now : DT) : Except PyErr DT :=
  match timeOpt with
  | some t => calculate_datetime t dayOpt now
  | none => calculate_datetime (old.dt.tod / 60 * 60) dayOpt now

/-- `RemindCommand.modify_reminder` (the `/reminders modify` handler).
`oldIdx` is the autocomplete value, resolved through `get_reminder`
first; then the argument-presence case split of lines 353–396, ending in
`ReminderManager.modify_reminder`.  `timeOpt`/`dayOpt` are the parsed
time and day arguments (absent or parseable present). -/
def modify_reminder_cmd (s : Store) (u : Owner) (oldIdx : Nat)
    (msgOpt : Option String) (timeOpt : Option Nat) (dayOpt : Option Date)
    (now : DT) : Except PyErr Unit × Store :=
  match get_reminder s u oldIdx with
  | (.error e, s1) => (.error e, s1)
  | (.ok old, s1) =>
    if truthyStr msgOpt = false ∧ timeOpt = none ∧ dayOpt = none then
      (.error (.valueErr "Reminder unmodified, it stays the same"), s1)
    else if truthyStr msgOpt = true ∧ timeOpt = none ∧ dayOpt = none then
      modify_reminder s1 u old none msgOpt
    else if truthyStr msgOpt = false ∧ timeOpt = none ∧ dayOpt = none then
      (.error (.valueErr
        "You have to specify either the time or the day or the message"), s1)
    else
      match modify_resolve_dt old timeOpt dayOpt now with
      | .error e => (.error e, s1)
      | .ok dt => modify_reminder s1 u old (some dt) msgOpt

/-- `RemindCommand.delete_reminder` (the `/reminders delete` handler). -/
def delete_reminder_cmd (s : Store) (u : Owner) (idx : Nat) :
    Except PyErr Unit × Store :=
  match get_reminder s u idx with
  | (.error e, s1) => (.error e, s1)
  | (.ok r, s1) => delete_reminder s1 u r

/-- English month name, as produced by `strftime("%B")`. -/
def monthName : Nat → String
  | 1 => "January" | 2 => "February" | 3 => "March" | 4 => "April"
  | 5 => "May" | 6 => "June" | 7 => "July" | 8 => "August"
  | 9 => "September" | 10 => "October" | 11 => "November" | 12 => "December"
  | _ => ""

/-- Zero-padded two-digit decimal rendering (`%d`, `%I`, `%M`). -/
def pad2 (n : Nat) : String :=
  if n < 10 then "0" ++ toString n else toString n

/-- `strftime(DATE_TIME_FORMAT)` with `DATE_TIME_FORMAT =
"%B %d, %I:%M %p"`: month name, zero-padded day, 12-hour clock time.
Note that the year is NOT part of the rendering. -/
def fmtDateTime (t : DT) : String :=
  let H := t.tod / 3600 % 24
  let h12 := if H % 12 = 0 then 12 else H % 12
  monthName t.date.m ++ " " ++ pad2 t.date.d ++ ", " ++
    pad2 h12 ++ ":" ++ pad2 (t.tod / 60 % 60) ++ " " ++
    (if H < 12 then "AM" else "PM")

/-- An `app_commands.Choice[int]`: display name plus the integer value the
platform round-trips back (here: the reminder's index in the owner's
sorted collection). -/
structure Choice where
  name : String
  value : Nat
deriving DecidableEq

/-- The textual key built for one reminder in `reminder_autocomplete`:
`f"{reminder.message}: {reminder.dt.strftime(DATE_TIME_FORMAT)}"`. -/
def keyOf (r : Reminder) : String :=
  r.message ++ ": " ++ fmtDateTime r.dt

/-- Python `dict.__setitem__` on an association list: overwrite the value
in place when the key exists, append otherwise. -/
def dinsert (k : String) (v : Reminder) :
    List (String × Reminder) → List (String × Reminder)
  | [] => [(k, v)]
  | (k2, v2) :: m => if k2 = k then (k, v) :: m else (k2, v2) :: dinsert k v m

/-- Left-to-right accumulation of the dict comprehension of
`reminder_autocomplete`. -/
def buildKeyMapAux (acc : List (String × Reminder)) :
    List Reminder → List (String × Reminder)
  | [] => acc
  | r :: l => buildKeyMapAux (dinsert (keyOf r) r acc) l

/-- The dict comprehension of `reminder_autocomplete`: build the
key-to-reminder mapping over the owner's reminders in store order (a
later reminder with the same key silently overwrites an earlier one). -/
def buildKeyMap (l : List Reminder) : List (String × Reminder) :=
  buildKeyMapAux [] l

/-- Lookup in the key map (`message_index_map[match]`). -/
def dlookup (k : String) : List (String × Reminder) → Option Reminder
  | [] => none
  | (k2, v) :: m => if k2 = k then some v else dlookup k m

/-- `SortedSet.index` / `list.index`: position of the first occurrence. -/
def indexOfR (r : Reminder) (l : List Reminder) : Nat :=
  l.findIdx (fun x => x = r)

/-- Stable insertion into a list sorted by strictly descending score. -/
def insDesc (score : String → Nat) (k : String) : List String → List String
  | [] => [k]
  | x :: l => if score x < score k then k :: x :: l else x :: insDesc score k l

/-- Stable sort by descending score. -/
def sortDesc (score : String → Nat) : List String → List String
  | [] => []
  | x :: l => insDesc score x (sortDesc score l)

/-- Model of `rapidfuzz.process.extract(query, keys, limit=5)`: the keys
ranked by descending similarity to the query, truncated to the best 5.
The scoring function is an abstract parameter. -/
def extractTop5 (scorer : String → String → Nat) (query : String)
    (keys : List String) : List String :=
  (sortDesc (scorer query) keys).take 5

/-- `RemindCommand.reminder_autocomplete`: browse mode (empty `current`)
enumerates every reminder with its index; otherwise the key map is built,
the keys are fuzzy-ranked, and each of the top 5 keys is rendered as a
choice whose value is the live index of the reminder found in the map. -/
def reminder_autocomplete (scorer : String → String → Nat) (s : Store)
    (u : Owner) (current : String) : List Choice :=
  match list_reminders s u with
  | none => []
  | some reminders =>
    if reminders = [] then []
    else if current = "" then
      reminders.enum.map fun p =>
        ⟨p.2.message ++ " at " ++ fmtDateTime p.2.dt, p.1⟩
    else
      let m := buildKeyMap reminders
      (extractTop5 scorer current (m.map Prod.fst)).map fun k =>
        let r := (dlookup k m).getD ⟨⟨⟨0, 0, 0⟩, 0⟩, ""⟩
        ⟨k ++ " at " ++ fmtDateTime r.dt, indexOfR r reminders⟩

/-- The store operations named by the pruning claim, used to quantify over
"every store operation". -/
inductive StoreOp where
  | setR (u : Owner) (dt : DT) (message : String)
  | delR (u : Owner) (r : Reminder)
  | modR (u : Owner) (old : Reminder) (dtOpt : Option DT)
      (msgOpt : Option String)
  | listR (u : Owner)
  | drainR (now : DT)
  | getR (u : Owner) (i : Nat)

/-- The store state after running one operation (its result, successful or
not, is discarded; `list_reminders` reads through `dict.get` and never
touches the store). -/
def stepStore (s : Store) : StoreOp → Store
  | .setR u dt message => (set_reminder s u dt message).2
  | .delR u r => (delete_reminder s u r).2
  | .modR u old dtOpt msgOpt => (modify_reminder s u old dtOpt msgOpt).2
  | .listR _ => s
  | .drainR now => (get_expired_reminders s now).2
  | .getR u i => (get_reminder s u i).2

/-- The store invariant claimed in the spec: no owner entry holds an empty
collection. -/
def noEmpty (s : Store) : Prop := ∀ p ∈ s, p.2 ≠ ([] : List Reminder)

/-- A run of `ReminderManager.set_reminder` calls starting from the given
store (failed duplicate inserts leave the store unchanged). -/
def applySets (s : Store) : List (Owner × DT × String) → Store
  | [] => s
  | (u, dt, message) :: rest => applySets (set_reminder s u dt message).2 rest

/-- Enumeration of one owner's collection (empty when the owner is
absent — the spec treats the two as equivalent). -/
def ownerColl (s : Store) (u : Owner) : List Reminder :=
  (lookupS s u).getD []

instance (a b : Date) : Decidable (dateLt a b) :=
  decidable_of_iff _ dateLtb_iff

instance (a b : DT) : Decidable (dtLt a b) :=
  decidable_of_iff _ dtLtb_iff

instance (a b : Reminder) : Decidable (rlt a b) :=
  decidable_of_iff _ rLtb_iff

theorem dateLt_irrefl (a : Date) : ¬ dateLt a a := by
  cases a; simp [dateLt]

theorem dateLt_asymm {a b : Date} (h1 : dateLt a b) (h2 : dateLt b a) :
    False := by
  cases a; cases b
  simp only [dateLt, Date.mk.injEq] at *
  omega

/-- The datetime produced by the no-day branch of
`__calculate_datetime` is never in the past, so the trailing past-check
never fires: the function returns today's date combined with the parsed
time, rolled forward by exactly one day when (and only when) that
combination is strictly before "now". -/
theorem calculate_datetime_none_eq (t : Nat) (now : DT) :
    calculate_datetime t none now =
      .ok (if dtLtb ⟨now.date, t⟩ now then addOneDay ⟨now.date, t⟩
        else ⟨now.date, t⟩) := by
  unfold calculate_datetime
  by_cases h : dtLtb ⟨now.date, t⟩ now
  · have hf : dtLtb (addOneDay ⟨now.date, t⟩) now = false := by
      rw [Bool.eq_false_iff]
      intro hc
      rcases dtLtb_iff.mp hc with hd | ⟨he, _⟩
      · exact dateLt_asymm (dateLt_next now.date) (by simpa [addOneDay] using hd)
      · have he2 : now.date.next = now.date := by simpa [addOneDay] using he
        have hx := dateLt_next now.date
        rw [he2] at hx
        exact dateLt_irrefl now.date hx
    simp [h, hf]
  · simp [h]

/-- When an explicit day is supplied, a successful resolution returns
exactly the combination of that day with the parsed time. -/
theorem calculate_datetime_some_ok {t : Nat} {d : Date} {now dtv : DT}
    (h : calculate_datetime t (some d) now = .ok dtv) : dtv = ⟨d, t⟩ := by
  unfold calculate_datetime at h
  dsimp only at h
  split at h
  · split at h
    · cases h
    · split at h
      · cases h
      · cases h; rfl
  · cases h; rfl

/-- C3 (counterexample): when the combination of the parsed time with
today's date is exactly equal to "now" (here 09:00:00 on 2025-01-01), the
result is *not after* "now", yet the code (`if dt < now`) does not roll
forward a day: it returns today 09:00 unchanged instead of the
2025-01-02 09:00 that the claim requires. -/
theorem rollover_boundary_cex :
    calculate_datetime (9 * 3600) none ⟨⟨2025, 1, 1⟩, 9 * 3600⟩ =
      .ok ⟨⟨2025, 1, 1⟩, 9 * 3600⟩ ∧
    dtLtb ⟨⟨2025, 1, 1⟩, 9 * 3600⟩ ⟨⟨2025, 1, 1⟩, 9 * 3600⟩ = false ∧
    (⟨⟨2025, 1, 1⟩, 9 * 3600⟩ : DT) ≠
      addOneDay ⟨⟨2025, 1, 1⟩, 9 * 3600⟩ :=
  ⟨rfl, rfl, by decide⟩

/-- C3 (amended): with `date_text` omitted, resolution combines the parsed
time with today's date and rolls forward by exactly one day when (and
only when) that combination is strictly *before* "now"; a combination
exactly equal to "now" is returned unchanged.  In particular, resolving
09:00 AM when now is 2025-01-01 10:00 AM yields 2025-01-02 09:00 AM, and
resolving 11:00 AM under the same now yields 2025-01-01 11:00 AM. -/
theorem rollover_policy :
    (∀ (t : Nat) (now : DT),
      calculate_datetime t none now =
        .ok (if dtLtb ⟨now.date, t⟩ now then addOneDay ⟨now.date, t⟩
          else ⟨now.date, t⟩)) ∧
    calculate_datetime (9 * 3600) none ⟨⟨2025, 1, 1⟩, 10 * 3600⟩ =
      .ok ⟨⟨2025, 1, 2⟩, 9 * 3600⟩ ∧
    calculate_datetime (11 * 3600) none ⟨⟨2025, 1, 1⟩, 10 * 3600⟩ =
      .ok ⟨⟨2025, 1, 1⟩, 11 * 3600⟩ :=
  ⟨calculate_datetime_none_eq, rfl, rfl⟩

/-- C4 (counterexample): an explicit date/time combination exactly equal
to "now" (2025-01-01 10:00:00) is not strictly greater than "now", yet
the code (`if dt < now`) succeeds and returns it instead of failing with
`PastDateTime` as the claim requires. -/
theorem past_rejection_boundary_cex :
    calculate_datetime (10 * 3600) (some ⟨2025, 1, 1⟩)
        ⟨⟨2025, 1, 1⟩, 10 * 3600⟩ =
      .ok ⟨⟨2025, 1, 1⟩, 10 * 3600⟩ ∧
    dtLtb ⟨⟨2025, 1, 1⟩, 10 * 3600⟩ ⟨⟨2025, 1, 1⟩, 10 * 3600⟩ = false :=
  ⟨rfl, rfl⟩

/-- C4 (amended): with an explicit date, resolution fails with
`PastDateTime` exactly when the combined timestamp is strictly *less*
than "now" (a combination greater than or equal to "now" succeeds and is
returned as-is), and a failing resolution leaves a `set` with no store
mutation. -/
theorem past_rejection_policy (t : Nat) (d : Date) (now : DT) :
    (dtLt ⟨d, t⟩ now →
      (∃ msg, calculate_datetime t (some d) now =
          .error (.pastDateTime msg)) ∧
      ∀ (s : Store) (u : Owner) (message : String),
        (set_reminder_cmd s u message t (some d) now).2 = s ∧
        ∃ msg, (set_reminder_cmd s u message t (some d) now).1 =
          .error (.pastDateTime msg)) ∧
    (¬ dtLt ⟨d, t⟩ now →
      calculate_datetime t (some d) now = .ok ⟨d, t⟩) := by
  constructor
  · intro hlt
    have hb : dtLtb ⟨d, t⟩ now = true := dtLtb_iff.mpr hlt
    have hcalc : ∃ msg, calculate_datetime t (some d) now =
        .error (.pastDateTime msg) := by
      by_cases hdd : dateLtb d now.date = true
      · refine ⟨"The day passed in is already over", ?_⟩
        unfold calculate_datetime
        simp [hb, hdd]
      · have hd2 : ¬ dateLt d now.date := by
          rw [← dateLtb_iff]; simp [hdd]
        rcases hlt with hd | ⟨he, ht⟩
        · exact absurd hd hd2
        · have ht2 : t < now.tod := ht
          refine ⟨"The time passed in is already over", ?_⟩
          unfold calculate_datetime
          simp [hb, hdd, ht2]
    refine ⟨hcalc, ?_⟩
    intro s u message
    obtain ⟨msg, he⟩ := hcalc
    constructor
    · unfold set_reminder_cmd
      rw [he]
    · exact ⟨msg, by unfold set_reminder_cmd; rw [he]⟩
  · intro hge
    have hb : dtLtb ⟨d, t⟩ now = false := by
      rw [Bool.eq_false_iff]
      intro hc
      exact hge (dtLtb_iff.mp hc)
    unfold calculate_datetime
    simp [hb]

/-- C4 (witness): the amended theorem applied at 2024-12-31 09:00 with
now = 2025-01-01 10:00 (a past combination: resolution fails, and a
`set` built on it leaves the store unchanged) and at 2025-01-02 09:00
(a future combination: resolution returns it). -/
theorem past_rejection_policy_witness :
    (∃ msg, calculate_datetime (9 * 3600) (some ⟨2024, 12, 31⟩)
        ⟨⟨2025, 1, 1⟩, 10 * 3600⟩ = .error (.pastDateTime msg)) ∧
    (set_reminder_cmd [] 0 "x" (9 * 3600) (some ⟨2024, 12, 31⟩)
        ⟨⟨2025, 1, 1⟩, 10 * 3600⟩).2 = [] ∧
    calculate_datetime (9 * 3600) (some ⟨2025, 1, 2⟩)
        ⟨⟨2025, 1, 1⟩, 10 * 3600⟩ = .ok ⟨⟨2025, 1, 2⟩, 9 * 3600⟩ :=
  ⟨((past_rejection_policy (9 * 3600) ⟨2024, 12, 31⟩
      ⟨⟨2025, 1, 1⟩, 10 * 3600⟩).1 (by decide)).1,
    (((past_rejection_policy (9 * 3600) ⟨2024, 12, 31⟩
      ⟨⟨2025, 1, 1⟩, 10 * 3600⟩).1 (by decide)).2 [] 0 "x").1,
    (past_rejection_policy (9 * 3600) ⟨2025, 1, 2⟩
      ⟨⟨2025, 1, 1⟩, 10 * 3600⟩).2 (by decide)⟩

/-- C5 (counterexample): modifying a reminder whose target is due on
2025-06-15 09:00 by supplying only a new time (11:00 AM) resolves
against *today* (now = 2025-01-01 10:00): the result is 2025-01-01
11:00, not a timestamp on the target's existing date 2025-06-15 as the
claim requires. -/
theorem modify_time_only_cex :
    modify_resolve_dt ⟨⟨⟨2025, 6, 15⟩, 9 * 3600⟩, "x"⟩ (some (11 * 3600))
        none ⟨⟨2025, 1, 1⟩, 10 * 3600⟩ = .ok ⟨⟨2025, 1, 1⟩, 11 * 3600⟩ ∧
    (⟨2025, 1, 1⟩ : Date) ≠ ⟨2025, 6, 15⟩ :=
  ⟨rfl, by decide⟩

/-- C5 (amended): a modify that supplies only a new time re-resolves it
against today's date with the rollover policy — the resulting date is
today or tomorrow, never the target's existing date (which is ignored) —
while a modify that supplies only a new date does reuse the target
reminder's existing time-of-day (rendered through
`strftime`/`strptime`, exact for the whole-minute times the store
contains). -/
theorem modify_resolve_policy :
    (∀ (old : Reminder) (t : Nat) (now : DT),
      modify_resolve_dt old (some t) none now =
        calculate_datetime t none now) ∧
    (∀ (old : Reminder) (t : Nat) (now : DT) (dtv : DT),
      modify_resolve_dt old (some t) none now = .ok dtv →
        dtv.date = now.date ∨ dtv.date = now.date.next) ∧
    (∀ (old : Reminder) (d : Date) (now : DT) (dtv : DT),
      old.dt.tod % 60 = 0 →
      modify_resolve_dt old none (some d) now = .ok dtv →
        dtv.date = d ∧ dtv.tod = old.dt.tod) := by
  refine ⟨fun old t now => rfl, ?_, ?_⟩
  · intro old t now dtv h
    simp only [modify_resolve_dt] at h
    rw [calculate_datetime_none_eq] at h
    by_cases hc : dtLtb ⟨now.date, t⟩ now
    · rw [if_pos hc] at h
      cases h
      right; rfl
    · rw [if_neg hc] at h
      cases h
      left; rfl
  · intro old d now dtv h0 h
    simp only [modify_resolve_dt] at h
    have he := calculate_datetime_some_ok h
    subst he
    exact ⟨rfl, Nat.div_mul_cancel (Nat.dvd_of_mod_eq_zero h0)⟩

/-- C5 (witness): the amended theorem applied at concrete inputs: a
time-only modify of a 2025-06-15 target lands on today (2025-01-01), and
a date-only modify to 2025-05-05 of a 09:00 target keeps 09:00. -/
theorem modify_resolve_policy_witness :
    ((⟨⟨2025, 1, 1⟩, 11 * 3600⟩ : DT).date = ⟨2025, 1, 1⟩ ∨
      (⟨⟨2025, 1, 1⟩, 11 * 3600⟩ : DT).date = Date.next ⟨2025, 1, 1⟩) ∧
    ((⟨⟨2025, 5, 5⟩, 9 * 3600⟩ : DT).date = ⟨2025, 5, 5⟩ ∧
      (⟨⟨2025, 5, 5⟩, 9 * 3600⟩ : DT).tod =
        (⟨⟨⟨2025, 6, 15⟩, 9 * 3600⟩, "x"⟩ : Reminder).dt.tod) :=
  ⟨modify_resolve_policy.2.1 ⟨⟨⟨2025, 6, 15⟩, 9 * 3600⟩, "x"⟩ (11 * 3600)
      ⟨⟨2025, 1, 1⟩, 10 * 3600⟩ ⟨⟨2025, 1, 1⟩, 11 * 3600⟩ rfl,
    modify_resolve_policy.2.2 ⟨⟨⟨2025, 6, 15⟩, 9 * 3600⟩, "x"⟩ ⟨2025, 5, 5⟩
      ⟨⟨2025, 1, 1⟩, 10 * 3600⟩ ⟨⟨2025, 5, 5⟩, 9 * 3600⟩ (by decide) rfl⟩

theorem dgetS_of_lookup {s : Store} {u : Owner} {l : List Reminder}
    (h : lookupS s u = some l) : dgetS s u = (l, s) := by
  simp [dgetS, h]

/-- C6 (counterexample): modifying a reminder into itself — supplying its
own message as the "new" message — fails with the duplicate error, even
though the replacement equals the old reminder (it does not "differ from
old"), where the claim requires the replace to succeed. -/
theorem replace_self_duplicate_cex :
    (modify_reminder [(0, [⟨⟨⟨2025, 12, 12⟩, 10 * 3600⟩, "buy milk"⟩])] 0
        ⟨⟨⟨2025, 12, 12⟩, 10 * 3600⟩, "buy milk"⟩ none (some "buy milk")).1 =
      .error (.valueErr
        "You can't edit a reminder to make it the same as another reminder") ∧
    modify_new ⟨⟨⟨2025, 12, 12⟩, 10 * 3600⟩, "buy milk"⟩ none
        (some "buy milk") =
      ⟨⟨⟨2025, 12, 12⟩, 10 * 3600⟩, "buy milk"⟩ :=
  ⟨rfl, rfl⟩

/-- C6 (amended): for an owner whose collection contains `old`, replace
fails with the duplicate error if and only if the replacement reminder
already exists in the owner's collection — including the case where the
replacement equals `old` itself; when the replacement is not present,
the operation removes `old` and inserts the replacement. -/
theorem replace_duplicate_policy (s : Store) (u : Owner) (old : Reminder)
    (dtOpt : Option DT) (msgOpt : Option String) (l : List Reminder)
    (hl : lookupS s u = some l) (hold : old ∈ l)
    (harg : truthyStr msgOpt = true ∨ dtOpt ≠ none) :
    ((modify_reminder s u old dtOpt msgOpt).1 =
        .error (.valueErr
          "You can't edit a reminder to make it the same as another reminder")
        ↔ modify_new old dtOpt msgOpt ∈ l) ∧
    (modify_new old dtOpt msgOpt ∉ l →
      modify_reminder s u old dtOpt msgOpt =
        (.ok (),
          updateS s u (ssAdd (modify_new old dtOpt msgOpt) (removeR old l)))) := by
  have hcond : ¬ (truthyStr msgOpt = false ∧ dtOpt = none) := by
    rcases harg with h | h
    · intro hc
      rw [h] at hc
      exact absurd hc.1 (by simp)
    · intro hc
      exact h hc.2
  unfold modify_reminder
  rw [if_neg hcond, dgetS_of_lookup hl]
  by_cases hnew : modify_new old dtOpt msgOpt ∈ l
  · simp [hnew]
  · simp [hnew, hold]

/-- C6 (witness): the amended theorem applied at a one-reminder store:
changing the message of the only reminder to a fresh one is not a
duplicate and performs remove-then-insert. -/
theorem replace_duplicate_policy_witness :
    (¬ (modify_reminder [(0, [⟨⟨⟨2025, 1, 2⟩, 9 * 3600⟩, "a"⟩])] 0
        ⟨⟨⟨2025, 1, 2⟩, 9 * 3600⟩, "a"⟩ none (some "c")).1 =
      .error (.valueErr
        "You can't edit a reminder to make it the same as another reminder")) ∧
    modify_reminder [(0, [⟨⟨⟨2025, 1, 2⟩, 9 * 3600⟩, "a"⟩])] 0
        ⟨⟨⟨2025, 1, 2⟩, 9 * 3600⟩, "a"⟩ none (some "c") =
      (.ok (), updateS [(0, [⟨⟨⟨2025, 1, 2⟩, 9 * 3600⟩, "a"⟩])] 0
        (ssAdd (modify_new ⟨⟨⟨2025, 1, 2⟩, 9 * 3600⟩, "a"⟩ none (some "c"))
          (removeR ⟨⟨⟨2025, 1, 2⟩, 9 * 3600⟩, "a"⟩
            [⟨⟨⟨2025, 1, 2⟩, 9 * 3600⟩, "a"⟩]))) := by
  have h := replace_duplicate_policy [(0, [⟨⟨⟨2025, 1, 2⟩, 9 * 3600⟩, "a"⟩])]
    0 ⟨⟨⟨2025, 1, 2⟩, 9 * 3600⟩, "a"⟩ none (some "c")
    [⟨⟨⟨2025, 1, 2⟩, 9 * 3600⟩, "a"⟩] rfl (by decide) (Or.inl (by decide))
  exact ⟨fun hc => (by decide : modify_new ⟨⟨⟨2025, 1, 2⟩, 9 * 3600⟩, "a"⟩
      none (some "c") ∉ [⟨⟨⟨2025, 1, 2⟩, 9 * 3600⟩, "a"⟩]) (h.1.mp hc),
    h.2 (by decide)⟩

theorem dgetS_of_lookup_none {s : Store} {u : Owner}
    (h : lookupS s u = none) : dgetS s u = ([], s ++ [(u, [])]) := by
  simp [dgetS, h]

theorem mem_ssAdd {a x : Reminder} {l : List Reminder} :
    x ∈ ssAdd a l ↔ x = a ∨ x ∈ l := by
  induction l with
  | nil => simp [ssAdd]
  | cons b l ih =>
    by_cases h : rLtb a b
    · simp [ssAdd, h]
    · simp only [ssAdd, if_neg h, List.mem_cons, ih]
      tauto

theorem ssAdd_ne_nil (a : Reminder) (l : List Reminder) : ssAdd a l ≠ [] := by
  cases l with
  | nil => simp [ssAdd]
  | cons b l =>
    by_cases h : rLtb a b <;> simp [ssAdd, h]

theorem ssAdd_pairwise {a : Reminder} {l : List Reminder}
    (hs : l.Pairwise rlt) (ha : a ∉ l) : (ssAdd a l).Pairwise rlt := by
  induction l with
  | nil => simp [ssAdd]
  | cons b l ih =>
    rcases List.pairwise_cons.mp hs with ⟨hb, hl⟩
    have hab : a ≠ b := fun he => ha (he ▸ List.mem_cons_self b l)
    have hal : a ∉ l := fun hm => ha (List.mem_cons_of_mem _ hm)
    by_cases h : rLtb a b
    · simp only [ssAdd, if_pos h]
      refine List.pairwise_cons.mpr ⟨?_, hs⟩
      intro x hx
      rcases List.mem_cons.mp hx with rfl | hx
      · exact rLtb_iff.mp h
      · exact rlt_trans (rLtb_iff.mp h) (hb x hx)
    · simp only [ssAdd, if_neg h]
      have hba : rlt b a :=
        rlt_of_not_rlt (fun hc => h (rLtb_iff.mpr hc)) hab
      refine List.pairwise_cons.mpr ⟨?_, ih hl hal⟩
      intro x hx
      rcases mem_ssAdd.mp hx with rfl | hx
      · exact hba
      · exact hb x hx

/-- Every owner entry of the store holds a `Pairwise rlt` (strictly
ascending, duplicate-free) collection. -/
def SortedStore (s : Store) : Prop := ∀ p ∈ s, List.Pairwise rlt p.2

theorem lookupS_mem {s : Store} {u : Owner} {l : List Reminder}
    (h : lookupS s u = some l) : (u, l) ∈ s := by
  induction s with
  | nil => simp [lookupS] at h
  | cons q s ih =>
    obtain ⟨v, m⟩ := q
    simp only [lookupS] at h
    by_cases hv : v = u
    · rw [if_pos hv] at h
      cases h
      subst hv
      exact List.mem_cons_self _ _
    · rw [if_neg hv] at h
      exact List.mem_cons_of_mem _ (ih h)

theorem sortedStore_updateS {s : Store} {u : Owner} {l : List Reminder}
    (hs : SortedStore s) (hl : l.Pairwise rlt) :
    SortedStore (updateS s u l) := by
  induction s with
  | nil =>
    intro p hp
    simp only [updateS, List.mem_singleton] at hp
    subst hp
    exact hl
  | cons q s ih =>
    obtain ⟨v, m⟩ := q
    have hm : List.Pairwise rlt m := hs (v, m) (List.mem_cons_self _ _)
    have hs2 : SortedStore s := fun p hp => hs p (List.mem_cons_of_mem _ hp)
    intro p hp
    simp only [updateS] at hp
    by_cases hv : v = u
    · rw [if_pos hv] at hp
      rcases List.mem_cons.mp hp with rfl | hp
      · exact hl
      · exact hs2 p hp
    · rw [if_neg hv] at hp
      rcases List.mem_cons.mp hp with rfl | hp
      · exact hm
      · exact ih hs2 p hp

theorem sortedStore_append_empty {s : Store} {u : Owner}
    (hs : SortedStore s) : SortedStore (s ++ [(u, [])]) := by
  intro p hp
  rcases List.mem_append.mp hp with hp | hp
  · exact hs p hp
  · simp only [List.mem_singleton] at hp
    subst hp
    exact List.Pairwise.nil

theorem sortedStore_set {s : Store} {u : Owner} {dt : DT} {message : String}
    (hs : SortedStore s) : SortedStore (set_reminder s u dt message).2 := by
  unfold set_reminder
  rcases hlk : lookupS s u with _ | l
  · rw [dgetS_of_lookup_none hlk]
    simp only [List.not_mem_nil, if_neg (fun h => h)]
    exact sortedStore_updateS (sortedStore_append_empty hs)
      (ssAdd_pairwise List.Pairwise.nil (List.not_mem_nil _))
  · rw [dgetS_of_lookup hlk]
    have hl : List.Pairwise rlt l := hs (u, l) (lookupS_mem hlk)
    by_cases hmem : (⟨dt, message⟩ : Reminder) ∈ l
    · simp only [if_pos hmem]
      exact hs
    · simp only [if_neg hmem]
      exact sortedStore_updateS hs (ssAdd_pairwise hl hmem)

theorem sortedStore_applySets {s : Store} (hs : SortedStore s)
    (ops : List (Owner × DT × String)) : SortedStore (applySets s ops) := by
  induction ops generalizing s with
  | nil => exact hs
  | cons op rest ih =>
    obtain ⟨u, dt, m⟩ := op
    exact ih (sortedStore_set hs)

/-- C7: for every sequence of inserts (starting from the empty store with
which `ReminderManager.__init__` begins), enumerating any owner's
collection yields a strictly ascending `(due_at, message)` sequence with
no two entries equal. -/
theorem insert_ordering_invariant (ops : List (Owner × DT × String))
    (u : Owner) :
    (ownerColl (applySets [] ops) u).Pairwise rlt ∧
    (ownerColl (applySets [] ops) u).Nodup := by
  have hstore : SortedStore (applySets [] ops) :=
    sortedStore_applySets (fun p hp => by simp at hp) ops
  have hp : (ownerColl (applySets [] ops) u).Pairwise rlt := by
    unfold ownerColl
    rcases h : lookupS (applySets [] ops) u with _ | l
    · simp
    · simpa using hstore (u, l) (lookupS_mem h)
  exact ⟨hp, hp.imp (fun hr he => absurd (he ▸ hr) (rlt_irrefl _))⟩

theorem noEmpty_updateS {s : Store} {u : Owner} {l : List Reminder}
    (hs : noEmpty s) (hl : l ≠ []) : noEmpty (updateS s u l) := by
  induction s with
  | nil =>
    intro p hp
    simp only [updateS, List.mem_singleton] at hp
    subst hp
    exact hl
  | cons q s ih =>
    obtain ⟨v, m⟩ := q
    have hm := hs (v, m) (List.mem_cons_self _ _)
    have hs2 : noEmpty s := fun p hp => hs p (List.mem_cons_of_mem _ hp)
    intro p hp
    simp only [updateS] at hp
    by_cases hv : v = u
    · rw [if_pos hv] at hp
      rcases List.mem_cons.mp hp with rfl | hp
      · exact hl
      · exact hs2 p hp
    · rw [if_neg hv] at hp
      rcases List.mem_cons.mp hp with rfl | hp
      · exact hm
      · exact ih hs2 p hp

theorem noEmpty_append {s : Store} {u : Owner} {l : List Reminder}
    (hs : noEmpty s) (hl : l ≠ []) : noEmpty (s ++ [(u, l)]) := by
  intro p hp
  rcases List.mem_append.mp hp with hp | hp
  · exact hs p hp
  · simp only [List.mem_singleton] at hp
    subst hp
    exact hl

theorem updateS_append_none {s : Store} {u : Owner} {x l : List Reminder}
    (h : lookupS s u = none) :
    updateS (s ++ [(u, x)]) u l = s ++ [(u, l)] := by
  induction s with
  | nil => simp [updateS]
  | cons q s ih =>
    obtain ⟨v, m⟩ := q
    simp only [lookupS] at h
    by_cases hv : v = u
    · rw [if_pos hv] at h
      cases h
    · rw [if_neg hv] at h
      simp only [List.cons_append, updateS, if_neg hv, List.append_eq]
      rw [ih h]

theorem mem_eraseS {s : Store} {u : Owner} {p : Owner × List Reminder}
    (hp : p ∈ eraseS s u) : p ∈ s := by
  induction s with
  | nil => simp [eraseS] at hp
  | cons q s ih =>
    obtain ⟨v, m⟩ := q
    simp only [eraseS] at hp
    by_cases hv : v = u
    · rw [if_pos hv] at hp
      exact List.mem_cons_of_mem _ hp
    · rw [if_neg hv] at hp
      rcases List.mem_cons.mp hp with rfl | hp
      · exact List.mem_cons_self _ _
      · exact List.mem_cons_of_mem _ (ih hp)

theorem eraseS_updateS {s : Store} {u : Owner} {l : List Reminder} :
    eraseS (updateS s u l) u = eraseS s u := by
  induction s with
  | nil => simp [updateS, eraseS]
  | cons q s ih =>
    obtain ⟨v, m⟩ := q
    by_cases hv : v = u
    · subst hv
      simp [updateS, eraseS]
    · simp only [updateS, if_neg hv, eraseS, if_neg hv]
      rw [ih]

theorem lookupS_eq_none_of_not_mem {s : Store} {u : Owner}
    (h : u ∉ s.map Prod.fst) : lookupS s u = none := by
  induction s with
  | nil => rfl
  | cons q s ih =>
    obtain ⟨v, m⟩ := q
    simp only [List.map_cons, List.mem_cons] at h
    push_neg at h
    have hvu : ¬ v = u := fun hv => h.1 hv.symm
    simp only [lookupS]
    rw [if_neg hvu]
    exact ih h.2

theorem lookupS_eraseS_self {s : Store} {u : Owner}
    (hnd : (s.map Prod.fst).Nodup) : lookupS (eraseS s u) u = none := by
  induction s with
  | nil => rfl
  | cons q s ih =>
    obtain ⟨v, m⟩ := q
    simp only [List.map_cons, List.nodup_cons] at hnd
    by_cases hv : v = u
    · simp only [eraseS, if_pos hv]
      subst hv
      exact lookupS_eq_none_of_not_mem hnd.1
    · simp only [eraseS, if_neg hv, lookupS, if_neg hv]
      exact ih hnd.2

/-- The operations whose `defaultdict` access vivifies a fresh empty
entry when the owner is absent; `opSafe` restricts delete, modify and
index lookup to owners present in the mapping (the other operations
never leave an empty entry behind regardless). -/
def opSafe (s : Store) : StoreOp → Prop
  | .delR u _ => (lookupS s u).isSome
  | .modR u _ _ _ => (lookupS s u).isSome
  | .getR u _ => (lookupS s u).isSome
  | _ => True

/-- C8 (counterexample): a lookup by index addressed to an owner with no
entry (index 0 for owner 0 on the empty store) raises `IndexError`, but
the `defaultdict` access has already created an empty-collection entry
for that owner, and it survives the failed call — violating the
no-empty-entry invariant the claim asserts for every operation. -/
theorem prune_lookup_cex :
    stepStore [] (.getR 0 0) = [(0, [])] ∧
    ¬ noEmpty (stepStore [] (.getR 0 0)) :=
  ⟨rfl, fun h => h (0, []) (List.mem_singleton.mpr rfl) rfl⟩

/-- C8 (amended): after any store operation that either cannot vivify a
`defaultdict` entry (insert, list, drain) or addresses an owner present
in the mapping, no owner is left with an empty collection; and deleting
an owner's last reminder prunes that owner's entry from the mapping.
(A delete, modify or index lookup addressed to an *absent* owner,
however, leaves a fresh empty entry behind, as the counterexample
shows.) -/
theorem prune_policy :
    (∀ (s : Store) (op : StoreOp), noEmpty s → opSafe s op →
      noEmpty (stepStore s op)) ∧
    (∀ (s : Store) (u : Owner) (r : Reminder),
      (s.map Prod.fst).Nodup → lookupS s u = some [r] →
      lookupS (stepStore s (.delR u r)) u = none) := by
  constructor
  · intro s op hs hsafe
    cases op with
    | setR u dt message =>
      simp only [stepStore]
      unfold set_reminder
      rcases hlk : lookupS s u with _ | l
      · rw [dgetS_of_lookup_none hlk]
        simp only [List.not_mem_nil, if_neg (fun h => h)]
        rw [updateS_append_none hlk]
        exact noEmpty_append hs (ssAdd_ne_nil _ _)
      · rw [dgetS_of_lookup hlk]
        by_cases hmem : (⟨dt, message⟩ : Reminder) ∈ l
        · simpa [hmem] using hs
        · simp only [if_neg hmem]
          exact noEmpty_updateS hs (ssAdd_ne_nil _ _)
    | delR u r =>
      simp only [stepStore]
      unfold delete_reminder
      simp only [opSafe, Option.isSome_iff_exists] at hsafe
      obtain ⟨l, hlk⟩ := hsafe
      rw [dgetS_of_lookup hlk]
      by_cases hmem : r ∈ l
      · simp only [if_pos hmem]
        by_cases hnil : removeR r l = []
        · simp only [hnil, if_pos rfl]
          rw [eraseS_updateS]
          exact fun p hp => hs p (mem_eraseS hp)
        · simp only [if_neg hnil]
          exact noEmpty_updateS hs hnil
      · simpa [hmem] using hs
    | modR u old dtOpt msgOpt =>
      simp only [stepStore]
      unfold modify_reminder
      by_cases hcond : truthyStr msgOpt = false ∧ dtOpt = none
      · simpa [hcond] using hs
      · simp only [if_neg hcond]
        simp only [opSafe, Option.isSome_iff_exists] at hsafe
        obtain ⟨l, hlk⟩ := hsafe
        rw [dgetS_of_lookup hlk]
        by_cases hnew : modify_new old dtOpt msgOpt ∈ l
        · simpa [hnew] using hs
        · simp only [if_neg hnew]
          by_cases hold : old ∈ l
          · simp only [if_pos hold]
            exact noEmpty_updateS hs (ssAdd_ne_nil _ _)
          · simpa [hold] using hs
    | listR u => exact hs
    | drainR now => exact hs
    | getR u i =>
      simp only [stepStore]
      unfold get_reminder
      simp only [opSafe, Option.isSome_iff_exists] at hsafe
      obtain ⟨l, hlk⟩ := hsafe
      rw [dgetS_of_lookup hlk]
      rcases hgi : l.get? i with _ | r <;> simp only [hgi] <;> exact hs
  · intro s u r hnd hlk
    simp only [stepStore]
    unfold delete_reminder
    rw [dgetS_of_lookup hlk]
    simp only [List.mem_singleton, if_pos rfl]
    have hrem : removeR r [r] = [] := by simp [removeR]
    rw [hrem]
    simp only [if_pos rfl]
    rw [eraseS_updateS]
    exact lookupS_eraseS_self hnd

/-- C8 (witness): the amended theorem applied concretely: deleting the
only reminder of owner 0 keeps the no-empty-entry invariant and prunes
the owner's mapping entry. -/
theorem prune_policy_witness :
    noEmpty (stepStore [(0, [⟨⟨⟨2025, 1, 2⟩, 9 * 3600⟩, "a"⟩])]
      (.delR 0 ⟨⟨⟨2025, 1, 2⟩, 9 * 3600⟩, "a"⟩)) ∧
    lookupS (stepStore [(0, [⟨⟨⟨2025, 1, 2⟩, 9 * 3600⟩, "a"⟩])]
      (.delR 0 ⟨⟨⟨2025, 1, 2⟩, 9 * 3600⟩, "a"⟩)) 0 = none :=
  ⟨prune_policy.1 [(0, [⟨⟨⟨2025, 1, 2⟩, 9 * 3600⟩, "a"⟩])]
      (.delR 0 ⟨⟨⟨2025, 1, 2⟩, 9 * 3600⟩, "a"⟩)
      (fun p hp => by
        simp only [List.mem_singleton] at hp
        subst hp
        simp)
      (by simp [opSafe, lookupS]),
    prune_policy.2 [(0, [⟨⟨⟨2025, 1, 2⟩, 9 * 3600⟩, "a"⟩])] 0
      ⟨⟨⟨2025, 1, 2⟩, 9 * 3600⟩, "a"⟩ (by simp) rfl⟩

theorem removeR_of_not_mem {r : Reminder} {l : List Reminder} (h : r ∉ l) :
    removeR r l = l := by
  induction l with
  | nil => rfl
  | cons x l ih =>
    have hx : x ≠ r := fun he => h (he ▸ List.mem_cons_self x l)
    have h2 : r ∉ l := fun hm => h (List.mem_cons_of_mem _ hm)
    simp only [removeR, if_neg hx]
    rw [ih h2]

theorem mem_removeR_of_ne {a r : Reminder} {l : List Reminder} (hne : a ≠ r)
    (h : a ∈ l) : a ∈ removeR r l := by
  induction l with
  | nil => simp at h
  | cons x l ih =>
    simp only [removeR]
    by_cases hx : x = r
    · rw [if_pos hx]
      rcases List.mem_cons.mp h with rfl | h2
      · exact absurd hx hne
      · exact h2
    · rw [if_neg hx]
      rcases List.mem_cons.mp h with rfl | h2
      · exact List.mem_cons_self _ _
      · exact List.mem_cons_of_mem _ (ih h2)

theorem lookupS_updateS_self {s : Store} {u : Owner} {l m : List Reminder}
    (h : lookupS s u = some m) : lookupS (updateS s u l) u = some l := by
  induction s with
  | nil => simp [lookupS] at h
  | cons q s ih =>
    obtain ⟨v, m2⟩ := q
    simp only [lookupS] at h
    by_cases hv : v = u
    · simp [updateS, hv, lookupS]
    · rw [if_neg hv] at h
      simp only [updateS, if_neg hv, lookupS, if_neg hv]
      exact ih h

theorem lookupS_updateS_other {s : Store} {u v : Owner} {l : List Reminder}
    (hv : v ≠ u) : lookupS (updateS s u l) v = lookupS s v := by
  have huv : ¬ u = v := fun h => hv h.symm
  induction s with
  | nil =>
    simp only [updateS, lookupS]
    exact if_neg huv
  | cons q s ih =>
    obtain ⟨w, m⟩ := q
    by_cases hw : w = u
    · subst hw
      simp only [updateS, if_pos rfl, lookupS]
      rw [if_neg huv, if_neg huv]
    · simp only [updateS, if_neg hw, lookupS]
      by_cases hwv : w = v
      · rw [if_pos hwv, if_pos hwv]
      · rw [if_neg hwv, if_neg hwv]
        exact ih

theorem lookupS_eraseS_other {s : Store} {u v : Owner} (hv : v ≠ u) :
    lookupS (eraseS s u) v = lookupS s v := by
  have huv : ¬ u = v := fun h => hv h.symm
  induction s with
  | nil => rfl
  | cons q s ih =>
    obtain ⟨w, m⟩ := q
    by_cases hw : w = u
    · subst hw
      have he : eraseS ((w, m) :: s) w = s := by
        simp [eraseS]
      rw [he, lookupS]
      rw [if_neg huv]
    · simp only [eraseS, if_neg hw, lookupS]
      by_cases hwv : w = v
      · rw [if_pos hwv, if_pos hwv]
      · rw [if_neg hwv, if_neg hwv]
        exact ih

theorem lookupS_append_some {s t : Store} {u : Owner} {m : List Reminder}
    (h : lookupS s u = some m) : lookupS (s ++ t) u = some m := by
  induction s with
  | nil => simp [lookupS] at h
  | cons q s ih =>
    obtain ⟨v, m2⟩ := q
    simp only [lookupS] at h
    simp only [List.cons_append, lookupS]
    by_cases hv : v = u
    · rwa [if_pos hv] at *
    · rw [if_neg hv] at h ⊢
      exact ih h

theorem lookupS_append_of_none {s t : Store} {u : Owner}
    (h : lookupS s u = none) : lookupS (s ++ t) u = lookupS t u := by
  induction s with
  | nil => rfl
  | cons q s ih =>
    obtain ⟨v, m⟩ := q
    simp only [lookupS] at h
    simp only [List.cons_append, lookupS]
    by_cases hv : v = u
    · rw [if_pos hv] at h
      cases h
    · rw [if_neg hv] at h ⊢
      exact ih h

theorem lookupS_of_mem_nodup {s : Store}
    (hk : (s.map Prod.fst).Nodup) {p : Owner × List Reminder} (hp : p ∈ s) :
    lookupS s p.1 = some p.2 := by
  induction s with
  | nil => simp at hp
  | cons q s ih =>
    obtain ⟨v, m⟩ := q
    simp only [List.map_cons, List.nodup_cons] at hk
    rcases List.mem_cons.mp hp with rfl | hp2
    · simp [lookupS]
    · have hv : ¬ v = p.1 := by
        intro he
        exact hk.1 (he ▸ List.mem_map.mpr ⟨p, hp2, rfl⟩)
      simp only [lookupS, if_neg hv]
      exact ih hk.2 hp2

theorem keys_updateS {s : Store} {u : Owner} {l m : List Reminder}
    (h : lookupS s u = some m) :
    (updateS s u l).map Prod.fst = s.map Prod.fst := by
  induction s with
  | nil => simp [lookupS] at h
  | cons q s ih =>
    obtain ⟨v, m2⟩ := q
    simp only [lookupS] at h
    by_cases hv : v = u
    · subst hv
      simp [updateS]
    · rw [if_neg hv] at h
      simp only [updateS, if_neg hv, List.map_cons]
      rw [ih h]

theorem keysNodup_eraseS {s : Store} {u : Owner}
    (h : (s.map Prod.fst).Nodup) : ((eraseS s u).map Prod.fst).Nodup := by
  induction s with
  | nil => simp [eraseS]
  | cons q s ih =>
    obtain ⟨v, m⟩ := q
    simp only [List.map_cons, List.nodup_cons] at h
    by_cases hv : v = u
    · simp only [eraseS, if_pos hv]
      exact h.2
    · simp only [eraseS, if_neg hv, List.map_cons, List.nodup_cons]
      refine ⟨fun hm => ?_, ih h.2⟩
      obtain ⟨p, hp, he⟩ := List.mem_map.mp hm
      exact h.1 (List.mem_map.mpr ⟨p, mem_eraseS hp, he⟩)

/-- The keys of the store are pairwise distinct (a Python dict cannot
hold duplicate keys). -/
def KeysNodup (s : Store) : Prop := (s.map Prod.fst).Nodup

theorem not_mem_keys_of_lookupS_none {s : Store} {u : Owner}
    (h : lookupS s u = none) : u ∉ s.map Prod.fst := by
  induction s with
  | nil => simp
  | cons q s ih =>
    obtain ⟨v, m⟩ := q
    simp only [lookupS] at h
    by_cases hv : v = u
    · rw [if_pos hv] at h
      cases h
    · rw [if_neg hv] at h
      simp only [List.map_cons, List.mem_cons]
      rintro (he | hm)
      · exact hv he.symm
      · exact ih h hm

/-- The effect of `delete_reminder` on every owner's enumeration: the
deleted reminder is removed from the addressed owner's collection (a
no-op when absent) and every other owner is untouched. -/
theorem ownerColl_delete {s : Store} (hk : KeysNodup s) (u v : Owner)
    (r : Reminder) :
    ownerColl (delete_reminder s u r).2 v =
      if v = u then removeR r (ownerColl s u) else ownerColl s v := by
  unfold delete_reminder
  rcases hlk : lookupS s u with _ | l
  · rw [dgetS_of_lookup_none hlk]
    simp only [List.not_mem_nil, if_neg (fun h => h)]
    unfold ownerColl
    by_cases hv : v = u
    · subst hv
      rw [lookupS_append_of_none hlk, if_pos rfl, hlk]
      simp only [lookupS]
      split <;> simp [removeR]
    · rw [if_neg hv]
      rcases hlv : lookupS s v with _ | lv
      · rw [lookupS_append_of_none hlv]
        simp only [lookupS]
        rw [if_neg (fun h => hv h.symm)]
      · rw [lookupS_append_some hlv]
  · rw [dgetS_of_lookup hlk]
    dsimp only
    by_cases hmem : r ∈ l
    · rw [if_pos hmem]
      by_cases hnil : removeR r l = []
      · rw [if_pos hnil]
        dsimp only
        rw [eraseS_updateS]
        unfold ownerColl
        by_cases hv : v = u
        · subst hv
          rw [lookupS_eraseS_self hk, hlk, if_pos rfl]
          simp [hnil]
        · rw [lookupS_eraseS_other hv, if_neg hv]
      · rw [if_neg hnil]
        dsimp only
        unfold ownerColl
        by_cases hv : v = u
        · subst hv
          rw [lookupS_updateS_self hlk, hlk, if_pos rfl]
          simp
        · rw [lookupS_updateS_other hv, if_neg hv]
    · rw [if_neg hmem]
      dsimp only
      unfold ownerColl
      by_cases hv : v = u
      · subst hv
        rw [hlk, if_pos rfl]
        simp [removeR_of_not_mem hmem]
      · rw [if_neg hv]

theorem keysNodup_delete {s : Store} {u : Owner} {r : Reminder}
    (hk : KeysNodup s) : KeysNodup (delete_reminder s u r).2 := by
  unfold delete_reminder
  rcases hlk : lookupS s u with _ | l
  · rw [dgetS_of_lookup_none hlk]
    simp only [List.not_mem_nil, if_neg (fun h => h)]
    unfold KeysNodup
    rw [List.map_append, List.nodup_append]
    refine ⟨hk, by simp, ?_⟩
    intro a ha hmem
    simp only [List.map_cons, List.map_nil, List.mem_singleton] at hmem
    subst hmem
    exact not_mem_keys_of_lookupS_none hlk ha
  · rw [dgetS_of_lookup hlk]
    dsimp only
    by_cases hmem : r ∈ l
    · rw [if_pos hmem]
      by_cases hnil : removeR r l = []
      · rw [if_pos hnil]
        dsimp only
        rw [eraseS_updateS]
        exact keysNodup_eraseS hk
      · rw [if_neg hnil]
        dsimp only
        unfold KeysNodup
        rw [keys_updateS hlk]
        exact hk
    · rw [if_neg hmem]
      exact hk

theorem takeExpired_eq_takeWhile (now : DT) (l : List Reminder) :
    takeExpired now l = l.takeWhile (fun r => dtLtb r.dt now) := by
  induction l with
  | nil => rfl
  | cons r l ih =>
    by_cases h : dtLtb r.dt now
    · simp only [takeExpired, if_pos h, List.takeWhile_cons, h, if_true]
      rw [ih]
    · simp only [takeExpired, if_neg h, List.takeWhile_cons]

theorem takeExpired_sublist (now : DT) (l : List Reminder) :
    (takeExpired now l).Sublist l := by
  rw [takeExpired_eq_takeWhile]
  exact List.takeWhile_sublist _

theorem takeExpired_pairwise {now : DT} {l : List Reminder}
    (h : l.Pairwise rlt) : (takeExpired now l).Pairwise rlt :=
  h.sublist (takeExpired_sublist now l)

theorem drain_mem {s : Store} {now : DT} (hk : KeysNodup s) :
    ∀ q ∈ (get_expired_reminders s now).1, q.2 ∈ ownerColl s q.1 := by
  intro q hq
  unfold get_expired_reminders at hq
  dsimp only at hq
  rw [List.mem_flatMap] at hq
  obtain ⟨p, hp, hq2⟩ := hq
  rw [List.mem_map] at hq2
  obtain ⟨r, hr, rfl⟩ := hq2
  unfold ownerColl
  rw [lookupS_of_mem_nodup hk hp]
  exact (takeExpired_sublist now p.2).subset hr

theorem mem_drain_fst {s : Store} {now : DT} {q : Owner × Reminder}
    (hq : q ∈ (get_expired_reminders s now).1) : q.1 ∈ s.map Prod.fst := by
  unfold get_expired_reminders at hq
  dsimp only at hq
  rw [List.mem_flatMap] at hq
  obtain ⟨p, hp, hq2⟩ := hq
  rw [List.mem_map] at hq2
  obtain ⟨r, hr, rfl⟩ := hq2
  exact List.mem_map.mpr ⟨p, hp, rfl⟩

theorem drain_nodup {s : Store} {now : DT} (hk : KeysNodup s)
    (hsort : SortedStore s) : (get_expired_reminders s now).1.Nodup := by
  unfold get_expired_reminders
  dsimp only
  induction s with
  | nil => simp
  | cons p s ih =>
    have hk2 : KeysNodup s := by
      unfold KeysNodup at hk ⊢
      simp only [List.map_cons, List.nodup_cons] at hk
      exact hk.2
    have hp1 : p.1 ∉ s.map Prod.fst := by
      unfold KeysNodup at hk
      simp only [List.map_cons, List.nodup_cons] at hk
      exact hk.1
    have hsort2 : SortedStore s := fun q hq => hsort q (List.mem_cons_of_mem _ hq)
    rw [List.flatMap_cons, List.nodup_append]
    refine ⟨?_, ih hk2 hsort2, ?_⟩
    · have hnd : (takeExpired now p.2).Nodup :=
        (takeExpired_pairwise (hsort p (List.mem_cons_self _ _))).imp
          (fun hr he => absurd (he ▸ hr) (rlt_irrefl _))
      exact hnd.map (fun a b h => congrArg Prod.snd h)
    · intro a ha hmem
      rw [List.mem_map] at ha
      obtain ⟨r, hr, rfl⟩ := ha
      exact hp1 (@mem_drain_fst s now _ hmem)

/-- Core of the at-delivery-time guarantee: along one scheduler pass,
every attempted delivery (successful or failing) happens while the
reminder is still present in the store recorded at that moment —
deletion follows each successful delivery. -/
theorem runPass_trace_mem (deliver : Owner → Reminder → Bool) :
    ∀ (ps : List (Owner × Reminder)) (s : Store),
      KeysNodup s →
      (∀ q ∈ ps, q.2 ∈ ownerColl s q.1) →
      ps.Nodup →
      ∀ p st, (p, st) ∈ (runPass deliver ps s).2.2 →
        p.2 ∈ ownerColl st p.1 := by
  intro ps
  induction ps with
  | nil =>
    intro s _ _ _ p st h
    simp [runPass] at h
  | cons q ps ih =>
    intro s hk hmem hnd p st htr
    obtain ⟨u, r⟩ := q
    cases hd : deliver u r with
    | true =>
      simp only [runPass, hd, if_true] at htr
      rcases List.mem_cons.mp htr with he | htr2
      · rw [Prod.mk.injEq] at he
        obtain ⟨he1, he2⟩ := he
        subst he1
        subst he2
        exact hmem (u, r) (List.mem_cons_self _ _)
      · refine ih ((delete_reminder s u r).2) (keysNodup_delete hk) ?_
          ((List.nodup_cons.mp hnd).2) p st htr2
        intro q2 hq2
        rw [ownerColl_delete hk u q2.1 r]
        by_cases hv : q2.1 = u
        · rw [if_pos hv]
          have hq2mem := hmem q2 (List.mem_cons_of_mem _ hq2)
          rw [hv] at hq2mem
          refine mem_removeR_of_ne ?_ hq2mem
          intro he2
          apply (List.nodup_cons.mp hnd).1
          have hq2e : q2 = (u, r) := by
            obtain ⟨a, b⟩ := q2
            simp only at hv he2
            rw [hv, he2]
          rw [← hq2e]
          exact hq2
        · rw [if_neg hv]
          exact hmem q2 (List.mem_cons_of_mem _ hq2)
    | false =>
      simp only [runPass, hd, Bool.false_eq_true, if_false] at htr
      simp only [List.mem_singleton, Prod.mk.injEq] at htr
      obtain ⟨he1, he2⟩ := htr
      subst he1
      subst he2
      exact hmem (u, r) (List.mem_cons_self _ _)

/-- C1 (counterexample): with a single expired reminder, the drain call
returns it but the store after the call still contains it — nothing is
removed as part of the call — and the scheduler pass then attempts the
delivery while the reminder is still in the store (the trace records the
pre-delivery store state); the deletion only follows the delivery. -/
theorem drain_removal_cex :
    (get_expired_reminders [(0, [⟨⟨⟨2025, 1, 1⟩, 9 * 3600⟩, "x"⟩])]
        ⟨⟨2025, 1, 1⟩, 10 * 3600⟩).1 =
      [(0, ⟨⟨⟨2025, 1, 1⟩, 9 * 3600⟩, "x"⟩)] ∧
    (get_expired_reminders [(0, [⟨⟨⟨2025, 1, 1⟩, 9 * 3600⟩, "x"⟩])]
        ⟨⟨2025, 1, 1⟩, 10 * 3600⟩).2 =
      [(0, [⟨⟨⟨2025, 1, 1⟩, 9 * 3600⟩, "x"⟩])] ∧
    check_reminders (fun _ _ => true)
        [(0, [⟨⟨⟨2025, 1, 1⟩, 9 * 3600⟩, "x"⟩])] ⟨⟨2025, 1, 1⟩, 10 * 3600⟩ =
      (.ok (), [],
        [((0, ⟨⟨⟨2025, 1, 1⟩, 9 * 3600⟩, "x"⟩),
          [(0, [⟨⟨⟨2025, 1, 1⟩, 9 * 3600⟩, "x"⟩])])]) :=
  ⟨rfl, rfl, rfl⟩

/-- C1 (amended): `get_expired_reminders` returns, for each owner in
mapping order, exactly the reminders at the front of that owner's
collection with `due_at < now`, stopping at the first non-expired entry
(so the result is ascending whenever the collection is sorted), and does
NOT remove them — the store after the call is exactly the store before
it.  Removal is instead performed by the scheduler loop after each
delivery: at the moment any delivery is attempted, the reminder is still
present in the store. -/
theorem drain_policy :
    (∀ (s : Store) (now : DT),
      (get_expired_reminders s now).1 =
        s.flatMap (fun p =>
          (p.2.takeWhile (fun r => dtLtb r.dt now)).map (fun r => (p.1, r))) ∧
      (get_expired_reminders s now).2 = s) ∧
    (∀ (now : DT) (l : List Reminder), l.Pairwise rlt →
      (takeExpired now l).Pairwise rlt) ∧
    (∀ (deliver : Owner → Reminder → Bool) (s : Store) (now : DT)
        (p : Owner × Reminder) (st : Store),
      KeysNodup s → SortedStore s →
      (p, st) ∈ (check_reminders deliver s now).2.2 →
      p.2 ∈ ownerColl st p.1) := by
  refine ⟨?_, ?_, ?_⟩
  · intro s now
    refine ⟨?_, rfl⟩
    unfold get_expired_reminders
    simp only [takeExpired_eq_takeWhile]
  · intro now l h
    exact takeExpired_pairwise h
  · intro deliver s now p st hk hsort htr
    exact runPass_trace_mem deliver (get_expired_reminders s now).1 s hk
      (drain_mem hk) (drain_nodup hk hsort) p st htr

/-- C1 (witness): the amended theorem applied at a one-reminder store:
the drained front is sorted, and the reminder delivered by the pass was
still present in the store captured at its delivery. -/
theorem drain_policy_witness :
    (takeExpired ⟨⟨2025, 1, 1⟩, 10 * 3600⟩
      [⟨⟨⟨2025, 1, 1⟩, 9 * 3600⟩, "x"⟩]).Pairwise rlt ∧
    (⟨⟨⟨2025, 1, 1⟩, 9 * 3600⟩, "x"⟩ : Reminder) ∈
      ownerColl [(0, [⟨⟨⟨2025, 1, 1⟩, 9 * 3600⟩, "x"⟩])] 0 :=
  ⟨drain_policy.2.1 ⟨⟨2025, 1, 1⟩, 10 * 3600⟩
      [⟨⟨⟨2025, 1, 1⟩, 9 * 3600⟩, "x"⟩] (by simp),
    drain_policy.2.2 (fun _ _ => true)
      [(0, [⟨⟨⟨2025, 1, 1⟩, 9 * 3600⟩, "x"⟩])] ⟨⟨2025, 1, 1⟩, 10 * 3600⟩
      (0, ⟨⟨⟨2025, 1, 1⟩, 9 * 3600⟩, "x"⟩)
      [(0, [⟨⟨⟨2025, 1, 1⟩, 9 * 3600⟩, "x"⟩])]
      (by simp [KeysNodup])
      (fun p hp => by
        simp only [List.mem_singleton] at hp
        subst hp
        simp)
      (List.mem_singleton.mpr rfl)⟩

theorem runPass_error (deliver : Owner → Reminder → Bool) :
    ∀ (ps : List (Owner × Reminder)) (s : Store) (e : Owner × Reminder),
      (runPass deliver ps s).1 = .error e →
      ∃ pre post, ps = pre ++ e :: post ∧
        deliver e.1 e.2 = false ∧
        (∀ p ∈ pre, deliver p.1 p.2 = true) ∧
        ((runPass deliver ps s).2.2).map Prod.fst = pre ++ [e] ∧
        (runPass deliver ps s).2.1 =
          pre.foldl (fun t p => (delete_reminder t p.1 p.2).2) s := by
  intro ps
  induction ps with
  | nil =>
    intro s e h
    simp [runPass] at h
  | cons q ps ih =>
    intro s e h
    obtain ⟨u, r⟩ := q
    cases hd : deliver u r with
    | true =>
      simp only [runPass, hd, if_true] at h
      obtain ⟨pre, post, h1, h2, h3, h4, h5⟩ :=
        ih (delete_reminder s u r).2 e h
      refine ⟨(u, r) :: pre, post, ?_, h2, ?_, ?_, ?_⟩
      · rw [List.cons_append, h1]
      · intro p hp
        rcases List.mem_cons.mp hp with rfl | hp2
        · exact hd
        · exact h3 p hp2
      · simp only [runPass, hd, if_true, List.map_cons]
        rw [h4, List.cons_append]
      · simp only [runPass, hd, if_true, List.foldl_cons]
        exact h5
    | false =>
      simp only [runPass, hd, Bool.false_eq_true, if_false,
        Except.error.injEq] at h
      subst h
      refine ⟨[], ps, rfl, hd, by simp, ?_, by simp [runPass, hd]⟩
      simp [runPass, hd]

/-- C2 (counterexample): two expired reminders for one owner and a
delivery sink that always fails: the first delivery raises, the
exception propagates out of the scan (the result is the error, not a
logged-and-continue outcome), the second reminder is never attempted
(the trace holds only the first pair) and nothing is removed from the
store — contradicting the claim that a failure is caught and does not
block subsequent deliveries. -/
theorem delivery_failure_cex :
    check_reminders (fun _ _ => false)
        [(0, [⟨⟨⟨2025, 1, 1⟩, 8 * 3600⟩, "a"⟩,
              ⟨⟨⟨2025, 1, 1⟩, 9 * 3600⟩, "b"⟩])]
        ⟨⟨2025, 1, 1⟩, 10 * 3600⟩ =
      (.error (0, ⟨⟨⟨2025, 1, 1⟩, 8 * 3600⟩, "a"⟩),
        [(0, [⟨⟨⟨2025, 1, 1⟩, 8 * 3600⟩, "a"⟩,
              ⟨⟨⟨2025, 1, 1⟩, 9 * 3600⟩, "b"⟩])],
        [((0, ⟨⟨⟨2025, 1, 1⟩, 8 * 3600⟩, "a"⟩),
          [(0, [⟨⟨⟨2025, 1, 1⟩, 8 * 3600⟩, "a"⟩,
                ⟨⟨⟨2025, 1, 1⟩, 9 * 3600⟩, "b"⟩])])]) := rfl

/-- C2 (amended): a delivery failure in a scan pass is *not* caught: the
pass aborts at the first failing pair; the pairs delivered are exactly
those before it (each removed right after its delivery), the failing
reminder and every later pair of the same pass are neither delivered nor
removed. -/
theorem delivery_failure_aborts (deliver : Owner → Reminder → Bool)
    (s : Store) (now : DT) (e : Owner × Reminder)
    (h : (check_reminders deliver s now).1 = .error e) :
    ∃ pre post,
      (get_expired_reminders s now).1 = pre ++ e :: post ∧
      deliver e.1 e.2 = false ∧
      (∀ p ∈ pre, deliver p.1 p.2 = true) ∧
      ((check_reminders deliver s now).2.2).map Prod.fst = pre ++ [e] ∧
      (check_reminders deliver s now).2.1 =
        pre.foldl (fun t p => (delete_reminder t p.1 p.2).2) s :=
  runPass_error deliver (get_expired_reminders s now).1 s e h

/-- C2 (witness): the amended theorem applied to the two-reminder store
whose sink fails on the first delivery. -/
theorem delivery_failure_aborts_witness :
    ∃ pre post,
      (get_expired_reminders
          [(0, [⟨⟨⟨2025, 1, 1⟩, 8 * 3600⟩, "a"⟩,
                ⟨⟨⟨2025, 1, 1⟩, 9 * 3600⟩, "b"⟩])]
          ⟨⟨2025, 1, 1⟩, 10 * 3600⟩).1 =
        pre ++ (0, ⟨⟨⟨2025, 1, 1⟩, 8 * 3600⟩, "a"⟩) :: post ∧
      (fun (_ : Owner) (_ : Reminder) => false) 0
          ⟨⟨⟨2025, 1, 1⟩, 8 * 3600⟩, "a"⟩ = false ∧
      (∀ p ∈ pre,
        (fun (_ : Owner) (_ : Reminder) => false) p.1 p.2 = true) ∧
      ((check_reminders (fun _ _ => false)
          [(0, [⟨⟨⟨2025, 1, 1⟩, 8 * 3600⟩, "a"⟩,
                ⟨⟨⟨2025, 1, 1⟩, 9 * 3600⟩, "b"⟩])]
          ⟨⟨2025, 1, 1⟩, 10 * 3600⟩).2.2).map Prod.fst = pre ++
            [(0, ⟨⟨⟨2025, 1, 1⟩, 8 * 3600⟩, "a"⟩)] ∧
      (check_reminders (fun _ _ => false)
          [(0, [⟨⟨⟨2025, 1, 1⟩, 8 * 3600⟩, "a"⟩,
                ⟨⟨⟨2025, 1, 1⟩, 9 * 3600⟩, "b"⟩])]
          ⟨⟨2025, 1, 1⟩, 10 * 3600⟩).2.1 =
        pre.foldl (fun t p => (delete_reminder t p.1 p.2).2)
          [(0, [⟨⟨⟨2025, 1, 1⟩, 8 * 3600⟩, "a"⟩,
                ⟨⟨⟨2025, 1, 1⟩, 9 * 3600⟩, "b"⟩])] :=
  delivery_failure_aborts (fun _ _ => false)
    [(0, [⟨⟨⟨2025, 1, 1⟩, 8 * 3600⟩, "a"⟩,
          ⟨⟨⟨2025, 1, 1⟩, 9 * 3600⟩, "b"⟩])]
    ⟨⟨2025, 1, 1⟩, 10 * 3600⟩ (0, ⟨⟨⟨2025, 1, 1⟩, 8 * 3600⟩, "a"⟩) rfl

/-- C9 (bug, evaluated at the failing input): two distinct reminders of
the same owner — same message "buy milk", both due December 12 at
10:00 AM but in different years (2025 vs 2026) — render to the same
autocomplete key because `DATE_TIME_FORMAT` omits the year; the dict
comprehension keeps only the later reminder under that key, so the
query yields a single candidate pointing at index 1 and the 2025
reminder can never be selected. -/
theorem autocomplete_key_collision :
    keyOf ⟨⟨⟨2025, 12, 12⟩, 10 * 3600⟩, "buy milk"⟩ =
      keyOf ⟨⟨⟨2026, 12, 12⟩, 10 * 3600⟩, "buy milk"⟩ ∧
    (⟨⟨⟨2025, 12, 12⟩, 10 * 3600⟩, "buy milk"⟩ : Reminder) ≠
      ⟨⟨⟨2026, 12, 12⟩, 10 * 3600⟩, "buy milk"⟩ ∧
    (reminder_autocomplete (fun _ _ => 0)
        [(0, [⟨⟨⟨2025, 12, 12⟩, 10 * 3600⟩, "buy milk"⟩,
              ⟨⟨⟨2026, 12, 12⟩, 10 * 3600⟩, "buy milk"⟩])] 0
        "buy milk").map Choice.value = [1] :=
  ⟨rfl, by decide, rfl⟩

/-- C10: passing an empty string as the new message is treated exactly
as supplying no message: the modify command computes identical results
and stores for `message=""` and `message=None`; in particular, with no
new time or date it fails with the nothing-to-modify error, and the
replacement built by the manager keeps the old reminder's message. -/
theorem empty_message_policy :
    (∀ (s : Store) (u : Owner) (i : Nat) (timeOpt : Option Nat)
        (dayOpt : Option Date) (now : DT),
      modify_reminder_cmd s u i (some "") timeOpt dayOpt now =
        modify_reminder_cmd s u i none timeOpt dayOpt now) ∧
    (∀ (s : Store) (u : Owner) (i : Nat) (now : DT) (old : Reminder),
      (get_reminder s u i).1 = .ok old →
      (modify_reminder_cmd s u i (some "") none none now).1 =
        .error (.valueErr "Reminder unmodified, it stays the same")) ∧
    (∀ (old : Reminder) (dt : DT),
      modify_new old (some dt) (some "") = ⟨dt, old.message⟩) := by
  refine ⟨fun s u i t d now => rfl, ?_, fun old dt => rfl⟩
  intro s u i now old h
  unfold modify_reminder_cmd
  rcases hg : get_reminder s u i with ⟨res, s1⟩
  rw [hg] at h
  cases res with
  | error e => cases h
  | ok r =>
    have hro : r = old := by
      simpa using h
    subst hro
    dsimp only
    rw [if_pos ⟨rfl, rfl, rfl⟩]

/-- C10 (witness): the theorem applied at a one-reminder store with a
valid index: an empty-string message with no time or date fails with
the nothing-to-modify error. -/
theorem empty_message_policy_witness :
    (modify_reminder_cmd [(0, [⟨⟨⟨2025, 1, 2⟩, 9 * 3600⟩, "a"⟩])] 0 0
        (some "") none none ⟨⟨2025, 1, 1⟩, 10 * 3600⟩).1 =
      .error (.valueErr "Reminder unmodified, it stays the same") :=
  empty_message_policy.2.1 [(0, [⟨⟨⟨2025, 1, 2⟩, 9 * 3600⟩, "a"⟩])] 0 0
    ⟨⟨2025, 1, 1⟩, 10 * 3600⟩ ⟨⟨⟨2025, 1, 2⟩, 9 * 3600⟩, "a"⟩ rfl
